import Mathlib

/-!
Verification of the molecular-geometry core of the repository
(`src/batistatemplate/hello.py`): atoms, molecules, derived geometric
quantities (center of mass, distance matrix, nuclear repulsion energy)
and coordinate transforms (translate, rotate via Rodrigues' formula).

Python floats are modelled by real numbers; the one place where IEEE
special values matter (the `np.inf` diagonal fill and division by zero
inside `nuclear_repulsion`) is modelled by an extended value type
`XFloat` with explicit infinities and NaN, following IEEE semantics for
the operations the code performs.
-/

open scoped Matrix

noncomputable section

/-- Supported unit systems (`UnitSystem` enum in the source). -/
inductive UnitSystem where
  | ATOMIC : UnitSystem
  | STANDARD : UnitSystem
  | SI : UnitSystem
  deriving DecidableEq

/-- An atom: chemical symbol, 3D position, atomic number and mass
(the frozen `Atom` dataclass).  Atomic numbers are natural numbers,
per the data model (positive integers taken from the fixed table). -/
structure Atom where
  symbol : String
  position : Fin 3 → ℝ
  atomic_number : ℕ
  mass : ℝ

/-- A default atom, used only as the out-of-range default of `List.getD`. -/
def dummyAtom : Atom := ⟨"", fun _ => 0, 0, 0⟩

instance : Inhabited Atom := ⟨dummyAtom⟩

/-- Generic result container (`Result` dataclass): a value, a success
flag (default `true`) and an optional error message (default `None`). -/
structure Result (T : Type) where
  value : T
  success : Bool
  error_message : Option String

/-- The fixed periodic-table lookup used by `Atom.from_symbol`:
symbol ↦ (atomic number, mass). -/
def atomic_data : List (String × ℕ × ℝ) :=
  [("H", 1, 1.008), ("He", 2, 4.003), ("Li", 3, 6.941), ("Be", 4, 9.012),
   ("B", 5, 10.811), ("C", 6, 12.011), ("N", 7, 14.007), ("O", 8, 15.999)]

/-- `Atom.from_symbol(symbol, position)`: looks the symbol up in the
fixed table; unknown symbols raise `ValueError` (modelled as `.error`),
known symbols yield an atom with the table's number and mass. -/
def Atom.from_symbol (symbol : String) (position : Fin 3 → ℝ) :
    Except String Atom :=
  match atomic_data.lookup symbol with
  | none => .error ("Unknown chemical element: " ++ symbol)
  | some (z, m) => .ok ⟨symbol, position, z, m⟩

/-- A molecule: an immutable sequence of atoms plus a unit system
(`Molecule.__init__`). -/
structure Molecule where
  atoms : List Atom
  unit_system : UnitSystem

/-- `Molecule.coordinates`: the (n×3) stack of atomic positions,
modelled as the list of position vectors, row order = atom order. -/
def Molecule.coordinates (m : Molecule) : List (Fin 3 → ℝ) :=
  m.atoms.map Atom.position

/-- `Molecule.atomic_numbers`: the list of atomic numbers, atom order. -/
def Molecule.atomic_numbers (m : Molecule) : List ℕ :=
  m.atoms.map Atom.atomic_number

/-- `Molecule.center_of_mass`: componentwise
`sum(mass_i * position_i) / sum(mass_i)`. -/
def Molecule.center_of_mass (m : Molecule) : Fin 3 → ℝ :=
  fun k => (m.atoms.map (fun a => a.mass * a.position k)).sum /
    (m.atoms.map Atom.mass).sum

/-- `Molecule.calculate_distance_matrix`: the (n×n) nested array whose
(i,j) entry is `sqrt(sum_k (coords[i,k] - coords[j,k])^2)`, exactly the
broadcast diff / square / sum / sqrt of the source. -/
def Molecule.calculate_distance_matrix (m : Molecule) : List (List ℝ) :=
  m.coordinates.map (fun p =>
    m.coordinates.map (fun q => Real.sqrt (∑ k, (p k - q k) ^ 2)))

/-- Entry (i,j) of a nested-list matrix, 0 outside the bounds. -/
def entry (D : List (List ℝ)) (i j : ℕ) : ℝ :=
  (D.getD i []).getD j 0

/-- IEEE-style extended value used to model the float arithmetic inside
`nuclear_repulsion` (`np.inf` on the diagonal, division by zero). -/
inductive XFloat where
  | fin : ℝ → XFloat
  | inf : XFloat
  | neginf : XFloat
  | nan : XFloat

/-- IEEE division of a finite float by an extended float, for a
nonnegative-zero denominator as produced by `np.sqrt`:
`c / ±inf = 0`, `c / 0 = ±inf` by the sign of `c`, `0 / 0 = nan`. -/
def xdiv (c : ℝ) (d : XFloat) : XFloat :=
  match d with
  | .inf => .fin 0
  | .neginf => .fin 0
  | .nan => .nan
  | .fin x =>
    if x = 0 then
      (if 0 < c then .inf else if c < 0 then .neginf else .nan)
    else .fin (c / x)

/-- IEEE addition on extended floats. -/
def xadd (a b : XFloat) : XFloat :=
  match a, b with
  | .nan, _ => .nan
  | _, .nan => .nan
  | .inf, .neginf => .nan
  | .neginf, .inf => .nan
  | .inf, _ => .inf
  | _, .inf => .inf
  | .neginf, _ => .neginf
  | _, .neginf => .neginf
  | .fin x, .fin y => .fin (x + y)

/-- Sum of a list of extended floats (`np.sum`), starting from 0. -/
def xsumL (l : List XFloat) : XFloat :=
  l.foldr xadd (.fin 0)

/-- Multiplication by the finite scalar 0.5 (`0.5 * np.sum(...)`). -/
def XFloat.half : XFloat → XFloat
  | .fin x => .fin (0.5 * x)
  | .inf => .inf
  | .neginf => .neginf
  | .nan => .nan

/-- `Molecule.nuclear_repulsion`: distance matrix with its diagonal
replaced by `np.inf`, elementwise `Z_i*Z_j / D_ij`, summed over the full
grid and halved.  The float arithmetic in the body is total (division by
zero produces infinities, not exceptions), so the `except` branch of the
source never executes and the result is always a success `Result`. -/
def Molecule.nuclear_repulsion (m : Molecule) : Result XFloat :=
  let D := m.calculate_distance_matrix
  let Z := m.atomic_numbers
  let n := m.atoms.length
  let terms : List (List XFloat) :=
    (List.range n).map (fun i =>
      (List.range n).map (fun j =>
        xdiv ((Z.getD i 0 * Z.getD j 0 : ℕ) : ℝ)
          (if i = j then XFloat.inf else XFloat.fin (entry D i j))))
  ⟨XFloat.half (xsumL (terms.map xsumL)), true, none⟩

/-- `apply_to_coordinates(func, molecule)`: applies `func` to the
coordinate rows and rebuilds atoms by zipping the original atoms with
the new rows (`zip(..., strict=False)`: truncates to the shorter). -/
def apply_to_coordinates (func : List (Fin 3 → ℝ) → List (Fin 3 → ℝ))
    (m : Molecule) : Molecule :=
  let new_coords := func m.coordinates
  let new_atoms := List.zipWith
    (fun (a : Atom) (pos : Fin 3 → ℝ) => Atom.mk a.symbol pos a.atomic_number a.mass)
    m.atoms new_coords
  ⟨new_atoms, m.unit_system⟩

/-- `translate_molecule(molecule, vector)`: every coordinate row shifted
by the same vector (`coords + vector` broadcasts over rows). -/
def translate_molecule (m : Molecule) (vector : Fin 3 → ℝ) : Molecule :=
  apply_to_coordinates (fun coords => coords.map (fun p => p + vector)) m

/-- `np.linalg.norm`: the Euclidean norm of a 3-vector. -/
def norm3 (v : Fin 3 → ℝ) : ℝ :=
  Real.sqrt (∑ k, (v k) ^ 2)

/-- The cross-product matrix built inside `rotation_matrix`, entry for
entry the numpy literal of the source. -/
def cross_matrix (a : Fin 3 → ℝ) : Matrix (Fin 3) (Fin 3) ℝ :=
  !![0, -(a 2), a 1; a 2, 0, -(a 0); -(a 1), a 0, 0]

/-- `rotation_matrix(theta, axis_vec)`: normalizes the axis, builds the
cross-product matrix and applies Rodrigues' formula with negated angle:
`np.eye(3) + np.sin(-theta)*K + (1 - np.cos(-theta))*(K @ K)`. -/
def rotation_matrix (theta : ℝ) (axis_vec : Fin 3 → ℝ) :
    Matrix (Fin 3) (Fin 3) ℝ :=
  let a := fun k => axis_vec k / norm3 axis_vec
  1 + Real.sin (-theta) • cross_matrix a +
    (1 - Real.cos (-theta)) • (cross_matrix a * cross_matrix a)

/-- `rotate_molecule(molecule, angle, axis)`: default axis (0,0,1);
each coordinate row `p` becomes `p @ rot_mat.T` (row-vector times the
transpose of the rotation matrix). -/
def rotate_molecule (m : Molecule) (angle : ℝ)
    (axis : Option (Fin 3 → ℝ)) : Molecule :=
  let ax := axis.getD ![0, 0, 1]
  let rot_mat := rotation_matrix angle ax
  apply_to_coordinates
    (fun coords => coords.map (fun p => p ᵥ* rot_matᵀ)) m

/-! Spec-side definitions, written from the specification's wording, to
be compared with the source-derived definitions above. -/

/-- The Euclidean distance between two 3-vectors (spec wording). -/
def EuclideanDist (p q : Fin 3 → ℝ) : ℝ :=
  Real.sqrt (∑ k, (p k - q k) ^ 2)

/-- Position of atom `i` of a molecule (out-of-range gives the dummy). -/
def Molecule.posAt (m : Molecule) (i : ℕ) : Fin 3 → ℝ :=
  (m.atoms.getD i dummyAtom).position

/-- The spec's center-of-mass formula: the mass-weighted average
position `Σ(mass_i · position_i) / Σ(mass_i)`, as an indexed sum. -/
def centerOfMassSpec (m : Molecule) : Fin 3 → ℝ :=
  fun k =>
    (∑ i : Fin m.atoms.length, (m.atoms.get i).mass * (m.atoms.get i).position k) /
      (∑ i : Fin m.atoms.length, (m.atoms.get i).mass)

/-- The skew-symmetric cross-product matrix of `a` (spec wording): the
matrix of the linear map `b ↦ a ×₃ b`. -/
def skewSpec (a : Fin 3 → ℝ) : Matrix (Fin 3) (Fin 3) ℝ :=
  Matrix.of fun i j => (crossProduct a) (Pi.single j 1) i

/-- The spec's rotation matrix: `R = I + sin(−angle)·K + (1 − cos(−angle))·K²`
where `K` is the cross-product matrix of the axis normalized to unit
length. -/
def rotationMatrixSpec (theta : ℝ) (axis : Fin 3 → ℝ) :
    Matrix (Fin 3) (Fin 3) ℝ :=
  let a := (norm3 axis)⁻¹ • axis
  1 + Real.sin (-theta) • skewSpec a +
    (1 - Real.cos (-theta)) • (skewSpec a * skewSpec a)

/-- Real value of the (i,j) term of the repulsion grid: 0 on the
diagonal (where the code divides by `np.inf`), `Z_i·Z_j / D_ij` off it. -/
def repulsionTerm (m : Molecule) (i j : ℕ) : ℝ :=
  if i = j then 0
  else ((m.atomic_numbers.getD i 0 * m.atomic_numbers.getD j 0 : ℕ) : ℝ) /
    entry m.calculate_distance_matrix i j

/-- Real value of row i of the repulsion grid. -/
def repulsionRow (m : Molecule) (i : ℕ) : ℝ :=
  ((List.range m.atoms.length).map (repulsionTerm m i)).sum

/-! Concrete inputs used by the witnesses. -/

/-- The all-zero position. -/
def zeroPos : Fin 3 → ℝ := fun _ => 0

/-- A hydrogen atom at the origin. -/
def atomH : Atom := ⟨"H", zeroPos, 1, 1.008⟩

/-- A hydrogen atom at (1,0,0). -/
def atomH1 : Atom := ⟨"H", ![1, 0, 0], 1, 1.008⟩

/-- A one-atom molecule. -/
def molH : Molecule := ⟨[atomH], UnitSystem.ATOMIC⟩

/-- Two hydrogens one unit apart. -/
def molHH : Molecule := ⟨[atomH, atomH1], UnitSystem.ATOMIC⟩

/-- Two hydrogens at the same position (degenerate). -/
def molDeg : Molecule := ⟨[atomH, atomH], UnitSystem.ATOMIC⟩

/-! Helper lemmas. -/

/-- Mapping `position` over the rebuilt atoms of `apply_to_coordinates`
recovers the new coordinate rows, truncated to the original atom count. -/
lemma map_position_zipWith (as : List Atom) (ps : List (Fin 3 → ℝ)) :
    (List.zipWith
      (fun (a : Atom) (pos : Fin 3 → ℝ) => Atom.mk a.symbol pos a.atomic_number a.mass)
      as ps).map Atom.position = ps.take as.length := by
  induction as generalizing ps with
  | nil => simp
  | cons a as ih =>
    cases ps with
    | nil => simp
    | cons p ps => simp [ih]

/-- When the transform preserves the row count, the coordinates of the
transformed molecule are exactly the transformed coordinates. -/
lemma coordinates_apply_to_coordinates (f : List (Fin 3 → ℝ) → List (Fin 3 → ℝ))
    (m : Molecule) (h : (f m.coordinates).length = m.atoms.length) :
    (apply_to_coordinates f m).coordinates = f m.coordinates := by
  unfold apply_to_coordinates Molecule.coordinates
  simp only [map_position_zipWith]
  exact List.take_of_length_le (le_of_eq h)

/-- The distance-matrix entry at in-range indices is the source's
sqrt-of-sum-of-squares of the coordinate difference. -/
lemma entry_calculate_distance_matrix (m : Molecule) (i j : ℕ)
    (hi : i < m.atoms.length) (hj : j < m.atoms.length) :
    entry m.calculate_distance_matrix i j =
      Real.sqrt (∑ k, (m.posAt i k - m.posAt j k) ^ 2) := by
  unfold entry Molecule.calculate_distance_matrix Molecule.coordinates Molecule.posAt
  simp [List.getD, List.getElem?_map, List.getElem?_eq_getElem, hi, hj,
    List.getD_eq_getElem _ _ hi, List.getD_eq_getElem _ _ hj]

/-! Claims. -/

/-- Claim C6: for every molecule, `calculate_distance_matrix()` has
(i,j) entry the Euclidean distance between atoms i and j, is symmetric,
and has zero diagonal. -/
theorem claim_distance_matrix (m : Molecule) (i j : ℕ)
    (hi : i < m.atoms.length) (hj : j < m.atoms.length) :
    entry m.calculate_distance_matrix i j = EuclideanDist (m.posAt i) (m.posAt j) ∧
    entry m.calculate_distance_matrix i j = entry m.calculate_distance_matrix j i ∧
    entry m.calculate_distance_matrix i i = 0 := by
  refine ⟨?_, ?_, ?_⟩
  · rw [entry_calculate_distance_matrix m i j hi hj]; rfl
  · rw [entry_calculate_distance_matrix m i j hi hj,
      entry_calculate_distance_matrix m j i hj hi]
    congr 1
    exact Finset.sum_congr rfl fun k _ => by ring
  · rw [entry_calculate_distance_matrix m i i hi hi]
    simp

/-- Witness for C6 at a concrete two-atom molecule and indices (0,1). -/
theorem claim_distance_matrix_witness :
    entry molHH.calculate_distance_matrix 0 1 =
      EuclideanDist (molHH.posAt 0) (molHH.posAt 1) ∧
    entry molHH.calculate_distance_matrix 0 1 =
      entry molHH.calculate_distance_matrix 1 0 ∧
    entry molHH.calculate_distance_matrix 0 0 = 0 :=
  claim_distance_matrix molHH 0 1 (by simp [molHH]) (by simp [molHH])

/-- Claim C4: translating by `v` and then by `−v` reproduces the
original coordinates (in the purely functional model the input molecule
is never modified by construction). -/
theorem claim_translate_roundtrip (m : Molecule) (v : Fin 3 → ℝ) :
    (translate_molecule (translate_molecule m v) (-v)).coordinates = m.coordinates := by
  have h1 : (translate_molecule m v).coordinates = m.coordinates.map (fun p => p + v) := by
    unfold translate_molecule
    exact coordinates_apply_to_coordinates _ m (by simp [Molecule.coordinates])
  have h2 : (translate_molecule (translate_molecule m v) (-v)).coordinates =
      (translate_molecule m v).coordinates.map (fun p => p + -v) := by
    unfold translate_molecule
    exact coordinates_apply_to_coordinates _ _ (by simp [Molecule.coordinates])
  rw [h2, h1, List.map_map]
  have hcomp : ((fun p => p + -v) ∘ fun p : Fin 3 → ℝ => p + v) = id := by
    funext p
    simp
  rw [hcomp, List.map_id]

/-- Claim C10: when the transform changes the row count, `zip` with
`strict=False` silently truncates: the result has `min n m` atoms. -/
theorem claim_zip_truncation (f : List (Fin 3 → ℝ) → List (Fin 3 → ℝ)) (m : Molecule) :
    (apply_to_coordinates f m).atoms.length =
      min m.atoms.length (f m.coordinates).length := by
  simp [apply_to_coordinates]

/-- Claim C8: for a row-count-preserving transform,
`apply_to_coordinates` keeps atom count and unit system, gives atom i
the i-th transformed position, and preserves symbol, atomic number and
mass of atom i. -/
theorem claim_apply_preserves_identity
    (f : List (Fin 3 → ℝ) → List (Fin 3 → ℝ)) (m : Molecule)
    (h : (f m.coordinates).length = m.atoms.length) :
    (apply_to_coordinates f m).atoms.length = m.atoms.length ∧
    (apply_to_coordinates f m).unit_system = m.unit_system ∧
    ∀ i, i < m.atoms.length →
      ((apply_to_coordinates f m).atoms.getD i dummyAtom).symbol =
        (m.atoms.getD i dummyAtom).symbol ∧
      ((apply_to_coordinates f m).atoms.getD i dummyAtom).position =
        (f m.coordinates).getD i (fun _ => 0) ∧
      ((apply_to_coordinates f m).atoms.getD i dummyAtom).atomic_number =
        (m.atoms.getD i dummyAtom).atomic_number ∧
      ((apply_to_coordinates f m).atoms.getD i dummyAtom).mass =
        (m.atoms.getD i dummyAtom).mass := by
  refine ⟨by simp [apply_to_coordinates, h], rfl, ?_⟩
  intro i hilt
  have hfc : i < (f m.coordinates).length := by rw [h]; exact hilt
  have hz : i < (apply_to_coordinates f m).atoms.length := by
    simp [apply_to_coordinates, h]
    exact hilt
  rw [List.getD_eq_getElem _ _ hz, List.getD_eq_getElem _ _ hilt,
    List.getD_eq_getElem _ _ hfc]
  simp [apply_to_coordinates, List.getElem_zipWith]

/-- Witness for C8: the identity transform on the one-atom molecule. -/
theorem claim_apply_preserves_identity_witness :
    (apply_to_coordinates id molH).atoms.length = molH.atoms.length ∧
    ((apply_to_coordinates id molH).atoms.getD 0 dummyAtom).symbol = "H" := by
  have hid : (id molH.coordinates).length = molH.atoms.length := by
    simp [Molecule.coordinates]
  have hmain := claim_apply_preserves_identity id molH hid
  refine ⟨hmain.1, ?_⟩
  have h0 := (hmain.2.2 0 (by simp [molH])).1
  rw [h0]
  simp [molH, atomH]

/-- The table lookup misses exactly the symbols outside the supported set. -/
lemma lookup_none_iff (s : String) : atomic_data.lookup s = none ↔
    s ∉ ["H", "He", "Li", "Be", "B", "C", "N", "O"] := by
  simp only [atomic_data, List.lookup_cons, List.lookup_nil, List.mem_cons,
    List.not_mem_nil]
  repeat' split
  all_goals simp_all

/-- A table row is found by lookup (the table's keys are distinct). -/
lemma lookup_of_mem (s : String) (z : ℕ) (mss : ℝ)
    (h : (s, z, mss) ∈ atomic_data) : atomic_data.lookup s = some (z, mss) := by
  simp only [atomic_data, List.mem_cons, List.not_mem_nil, or_false] at h
  rcases h with h | h | h | h | h | h | h | h <;>
    (rw [Prod.ext_iff] at h
     obtain ⟨rfl, h2⟩ := h
     rw [Prod.ext_iff] at h2
     obtain ⟨rfl, rfl⟩ := h2) <;>
    simp [atomic_data, List.lookup_cons]

/-- Claim C5: `Atom.from_symbol` fails with an unknown-element error
exactly when the symbol is outside {H, He, Li, Be, B, C, N, O}; on a
supported symbol it returns an atom with the table's atomic number and
mass (e.g. H ↦ (1, 1.008), O ↦ (8, 15.999)) at the given position. -/
theorem claim_from_symbol (s : String) (pos : Fin 3 → ℝ) :
    ((∃ e, Atom.from_symbol s pos = .error e) ↔
      s ∉ ["H", "He", "Li", "Be", "B", "C", "N", "O"]) ∧
    (∀ z : ℕ, ∀ mss : ℝ, (s, z, mss) ∈ atomic_data →
      Atom.from_symbol s pos = .ok ⟨s, pos, z, mss⟩) ∧
    Atom.from_symbol "H" pos = .ok ⟨"H", pos, 1, 1.008⟩ ∧
    Atom.from_symbol "O" pos = .ok ⟨"O", pos, 8, 15.999⟩ := by
  refine ⟨?_, ?_, ?_, ?_⟩
  · rw [← lookup_none_iff s]
    unfold Atom.from_symbol
    cases hl : atomic_data.lookup s with
    | none => simp
    | some zm => simp
  · intro z mss hmem
    unfold Atom.from_symbol
    rw [lookup_of_mem s z mss hmem]
  · unfold Atom.from_symbol
    rw [lookup_of_mem "H" 1 1.008 (by simp [atomic_data])]
  · unfold Atom.from_symbol
    rw [lookup_of_mem "O" 8 15.999 (by simp [atomic_data])]

/-- Witness for C5: an unsupported symbol errors, hydrogen succeeds. -/
theorem claim_from_symbol_witness :
    (∃ e, Atom.from_symbol "Na" zeroPos = .error e) ∧
    Atom.from_symbol "H" zeroPos = .ok ⟨"H", zeroPos, 1, 1.008⟩ := by
  have h1 := claim_from_symbol "Na" zeroPos
  have h2 := claim_from_symbol "H" zeroPos
  exact ⟨h1.1.mpr (by decide), h2.2.2.1⟩

/-- A list sum of mapped values as a sum over positions. -/
lemma list_sum_map_eq_fin_sum {α : Type} (l : List α) (f : α → ℝ) :
    (l.map f).sum = ∑ i : Fin l.length, f (l.get i) := by
  rw [Fin.sum_univ_def]
  have hc : (fun i : Fin l.length => f (l.get i)) = f ∘ l.get := rfl
  rw [hc, ← List.map_map, List.finRange_map_get]

/-- Claim C7: for a nonempty molecule, `center_of_mass` is the
mass-weighted average position; a single-atom molecule's center of mass
is that atom's position. -/
theorem claim_center_of_mass (m : Molecule) (h : m.atoms ≠ []) :
    m.center_of_mass = centerOfMassSpec m ∧
    ∀ a : Atom, m.atoms = [a] → 0 < a.mass → m.center_of_mass = a.position := by
  constructor
  · funext k
    unfold Molecule.center_of_mass centerOfMassSpec
    rw [list_sum_map_eq_fin_sum, list_sum_map_eq_fin_sum]
  · intro a ha hm
    funext k
    unfold Molecule.center_of_mass
    rw [ha]
    simp
    exact mul_div_cancel_left₀ _ hm.ne'

/-- Witness for C7 at the one-atom molecule. -/
theorem claim_center_of_mass_witness :
    molH.center_of_mass = centerOfMassSpec molH ∧
    molH.center_of_mass = atomH.position := by
  have hmain := claim_center_of_mass molH (by simp [molH])
  exact ⟨hmain.1, hmain.2 atomH rfl (by norm_num [atomH])⟩

/-- A sum of extended floats that are all finite is the finite sum. -/
lemma xsumL_map_fin {α : Type} (l : List α) (f : α → XFloat) (g : α → ℝ)
    (h : ∀ a ∈ l, f a = .fin (g a)) :
    xsumL (l.map f) = .fin ((l.map g).sum) := by
  induction l with
  | nil => rfl
  | cons a l ih =>
    simp only [List.map_cons, xsumL, List.foldr_cons, List.sum_cons]
    rw [h a (by simp)]
    have hrest := ih (fun b hb => h b (List.mem_cons_of_mem _ hb))
    unfold xsumL at hrest
    rw [hrest]
    rfl

/-- The root of the summed squared differences of distinct vectors is
positive. -/
lemma sqrt_sum_sq_pos (p q : Fin 3 → ℝ) (h : p ≠ q) :
    0 < Real.sqrt (∑ k, (p k - q k) ^ 2) := by
  apply Real.sqrt_pos.mpr
  have hk : ∃ k, p k ≠ q k := by
    by_contra hc
    push_neg at hc
    exact h (funext hc)
  obtain ⟨k, hk⟩ := hk
  have h1 : 0 < (p k - q k) ^ 2 := by
    have h2 := sub_ne_zero.mpr hk
    positivity
  exact Finset.sum_pos' (fun i _ => sq_nonneg _) ⟨k, Finset.mem_univ k, h1⟩

/-- `posAt` agrees with `List.get` inside the bounds. -/
lemma posAt_eq_get (m : Molecule) (i : ℕ) (hi : i < m.atoms.length) :
    m.posAt i = (m.atoms.get ⟨i, hi⟩).position := by
  unfold Molecule.posAt
  rw [List.getD_eq_getElem _ _ hi]
  rfl

/-- `atomic_numbers.getD` agrees with the atom's number inside bounds. -/
lemma atomic_numbers_getD (m : Molecule) (i : ℕ) (hi : i < m.atoms.length) :
    m.atomic_numbers.getD i 0 = (m.atoms.get ⟨i, hi⟩).atomic_number := by
  unfold Molecule.atomic_numbers
  have hlen : i < (m.atoms.map Atom.atomic_number).length := by simpa using hi
  rw [List.getD_eq_getElem _ _ hlen, List.getElem_map]
  rfl

/-- Claim C1: for a molecule whose atoms occupy pairwise-distinct
positions, `nuclear_repulsion()` is a success whose value is half the
sum over ordered pairs (i,j), i ≠ j, of `Z_i·Z_j` over the Euclidean
distance of atoms i and j, and that value is non-negative. -/
theorem claim_nuclear_repulsion (m : Molecule)
    (h : ∀ i j : Fin m.atoms.length, i ≠ j →
      (m.atoms.get i).position ≠ (m.atoms.get j).position) :
    ∃ E : ℝ,
      m.nuclear_repulsion = ⟨XFloat.fin E, true, none⟩ ∧
      E = 0.5 * ∑ i : Fin m.atoms.length, ∑ j : Fin m.atoms.length,
        (if i = j then 0 else
          (((m.atoms.get i).atomic_number * (m.atoms.get j).atomic_number : ℕ) : ℝ) /
            EuclideanDist ((m.atoms.get i).position) ((m.atoms.get j).position)) ∧
      0 ≤ E := by
  classical
  have hterm : ∀ i ∈ List.range m.atoms.length, ∀ j ∈ List.range m.atoms.length,
      xdiv ((m.atomic_numbers.getD i 0 * m.atomic_numbers.getD j 0 : ℕ) : ℝ)
        (if i = j then XFloat.inf
         else XFloat.fin (entry m.calculate_distance_matrix i j)) =
      XFloat.fin (repulsionTerm m i j) := by
    intro i hi j hj
    rw [List.mem_range] at hi hj
    by_cases hij : i = j
    · subst hij
      simp [xdiv, repulsionTerm]
    · have hpos : 0 < entry m.calculate_distance_matrix i j := by
        rw [entry_calculate_distance_matrix m i j hi hj]
        apply sqrt_sum_sq_pos
        rw [posAt_eq_get m i hi, posAt_eq_get m j hj]
        exact h ⟨i, hi⟩ ⟨j, hj⟩ (by simp [Fin.ext_iff, hij])
      unfold repulsionTerm
      rw [if_neg hij, if_neg hij]
      simp [xdiv, hpos.ne']
  have hrow : ∀ i ∈ List.range m.atoms.length,
      xsumL ((List.range m.atoms.length).map (fun j =>
        xdiv ((m.atomic_numbers.getD i 0 * m.atomic_numbers.getD j 0 : ℕ) : ℝ)
          (if i = j then XFloat.inf
           else XFloat.fin (entry m.calculate_distance_matrix i j)))) =
      XFloat.fin (repulsionRow m i) := by
    intro i hi
    unfold repulsionRow
    exact xsumL_map_fin _ _ _ (fun j hj => hterm i hi j hj)
  have htotal : xsumL ((((List.range m.atoms.length).map (fun i =>
      (List.range m.atoms.length).map (fun j =>
        xdiv ((m.atomic_numbers.getD i 0 * m.atomic_numbers.getD j 0 : ℕ) : ℝ)
          (if i = j then XFloat.inf
           else XFloat.fin (entry m.calculate_distance_matrix i j))))).map xsumL)) =
      XFloat.fin (((List.range m.atoms.length).map (repulsionRow m)).sum) := by
    rw [List.map_map]
    exact xsumL_map_fin _ _ _ (fun i hi => hrow i hi)
  have hS : ((List.range m.atoms.length).map (repulsionRow m)).sum =
      ∑ i in Finset.range m.atoms.length, repulsionRow m i := rfl
  refine ⟨0.5 * ((List.range m.atoms.length).map (repulsionRow m)).sum, ?_, ?_, ?_⟩
  · simp only [Molecule.nuclear_repulsion]
    rw [htotal]
    rfl
  · rw [hS]
    congr 1
    rw [← Fin.sum_univ_eq_sum_range (fun i => repulsionRow m i) m.atoms.length]
    apply Finset.sum_congr rfl
    intro i _
    unfold repulsionRow
    have hSi : ((List.range m.atoms.length).map (repulsionTerm m i.val)).sum =
        ∑ j in Finset.range m.atoms.length, repulsionTerm m i.val j := rfl
    rw [hSi, ← Fin.sum_univ_eq_sum_range (fun j => repulsionTerm m i.val j) m.atoms.length]
    apply Finset.sum_congr rfl
    intro j _
    unfold repulsionTerm
    by_cases hij : i = j
    · subst hij
      simp
    · have hij2 : i.val ≠ j.val := fun hc => hij (Fin.ext hc)
      rw [if_neg hij2, if_neg hij]
      rw [atomic_numbers_getD m i.val i.isLt, atomic_numbers_getD m j.val j.isLt,
        entry_calculate_distance_matrix m i.val j.val i.isLt j.isLt,
        posAt_eq_get m i.val i.isLt, posAt_eq_get m j.val j.isLt]
      simp [EuclideanDist, Fin.eta]
  · apply mul_nonneg (by norm_num)
    rw [hS]
    apply Finset.sum_nonneg
    intro i hi
    unfold repulsionRow
    have hSi : ((List.range m.atoms.length).map (repulsionTerm m i)).sum =
        ∑ j in Finset.range m.atoms.length, repulsionTerm m i j := rfl
    rw [hSi]
    apply Finset.sum_nonneg
    intro j hj
    rw [Finset.mem_range] at hi hj
    unfold repulsionTerm
    by_cases hij : i = j
    · simp [hij]
    · rw [if_neg hij]
      apply div_nonneg (Nat.cast_nonneg _)
      rw [entry_calculate_distance_matrix m i j hi hj]
      exact Real.sqrt_nonneg _

/-- Witness for C1 at two hydrogens one unit apart. -/
theorem claim_nuclear_repulsion_witness :
    ∃ E : ℝ,
      molHH.nuclear_repulsion = ⟨XFloat.fin E, true, none⟩ ∧
      E = 0.5 * ∑ i : Fin molHH.atoms.length, ∑ j : Fin molHH.atoms.length,
        (if i = j then 0 else
          (((molHH.atoms.get i).atomic_number * (molHH.atoms.get j).atomic_number : ℕ) : ℝ) /
            EuclideanDist ((molHH.atoms.get i).position) ((molHH.atoms.get j).position)) ∧
      0 ≤ E := by
  apply claim_nuclear_repulsion molHH
  intro i j hij
  fin_cases i <;> fin_cases j
  · exact absurd rfl hij
  · intro hc
    have h0 := congrFun hc 0
    norm_num [molHH, atomH, atomH1, zeroPos] at h0
  · intro hc
    have h0 := congrFun hc 0
    norm_num [molHH, atomH, atomH1, zeroPos] at h0
  · exact absurd rfl hij

/-- Claim C9: the failure branch of `nuclear_repulsion` is unreachable:
every molecule gets `success = true` and no error message; an empty
molecule gets energy 0, and two coincident atoms give an infinite
energy (division by zero produces `inf`, not an exception). -/
theorem claim_nuclear_repulsion_total :
    (∀ m : Molecule, (m.nuclear_repulsion).success = true ∧
      (m.nuclear_repulsion).error_message = none) ∧
    (∀ us : UnitSystem,
      ((Molecule.mk [] us).nuclear_repulsion).value = XFloat.fin 0) ∧
    (molDeg.nuclear_repulsion).value = XFloat.inf := by
  refine ⟨fun m => ⟨rfl, rfl⟩, fun us => ?_, ?_⟩
  · simp only [Molecule.nuclear_repulsion]
    norm_num [xsumL, XFloat.half]
  · have h01 : entry molDeg.calculate_distance_matrix 0 1 = 0 := by
      rw [entry_calculate_distance_matrix molDeg 0 1 (by simp [molDeg]) (by simp [molDeg])]
      simp [Molecule.posAt, molDeg, atomH]
    have h10 : entry molDeg.calculate_distance_matrix 1 0 = 0 := by
      rw [entry_calculate_distance_matrix molDeg 1 0 (by simp [molDeg]) (by simp [molDeg])]
      simp [Molecule.posAt, molDeg, atomH]
    have hZ : molDeg.atomic_numbers = [1, 1] := by
      simp [Molecule.atomic_numbers, molDeg, atomH]
    have hlen : molDeg.atoms.length = 2 := by simp [molDeg]
    simp only [Molecule.nuclear_repulsion, hlen, hZ]
    norm_num [List.range_succ, h01, h10, xdiv, xsumL, xadd, XFloat.half]

/-- The square of the cross-product matrix, entrywise. -/
lemma cross_matrix_sq (a : Fin 3 → ℝ) :
    cross_matrix a * cross_matrix a =
      !![-(a 1 ^ 2) - a 2 ^ 2, a 0 * a 1, a 0 * a 2;
         a 0 * a 1, -(a 0 ^ 2) - a 2 ^ 2, a 1 * a 2;
         a 0 * a 2, a 1 * a 2, -(a 0 ^ 2) - a 1 ^ 2] := by
  ext i j
  fin_cases i <;> fin_cases j <;>
    simp [cross_matrix, Matrix.mul_apply, Fin.sum_univ_three] <;> ring

/-- The Rodrigues matrix `I + s*K + u*K^2`, entrywise. -/
lemma rodrigues_expand (s u : ℝ) (a : Fin 3 → ℝ) :
    1 + s • cross_matrix a + u • (cross_matrix a * cross_matrix a) =
      !![1 + u * (-(a 1 ^ 2) - a 2 ^ 2), -(s * a 2) + u * (a 0 * a 1), s * a 1 + u * (a 0 * a 2);
         s * a 2 + u * (a 0 * a 1), 1 + u * (-(a 0 ^ 2) - a 2 ^ 2), -(s * a 0) + u * (a 1 * a 2);
         -(s * a 1) + u * (a 0 * a 2), s * a 0 + u * (a 1 * a 2), 1 + u * (-(a 0 ^ 2) - a 1 ^ 2)] := by
  rw [cross_matrix_sq]
  ext i j
  fin_cases i <;> fin_cases j <;>
    simp [cross_matrix, Matrix.one_apply] <;> ring


/-- The cross-product matrix is skew-symmetric. -/
lemma cross_matrix_transpose (a : Fin 3 → ℝ) :
    (cross_matrix a)ᵀ = -(cross_matrix a) := by
  ext i j
  fin_cases i <;> fin_cases j <;>
    simp [cross_matrix, Matrix.transpose_apply]

/-- Transposing the Rodrigues matrix negates the `s*K` term. -/
lemma rodrigues_transpose (s u : ℝ) (a : Fin 3 → ℝ) :
    (1 + s • cross_matrix a + u • (cross_matrix a * cross_matrix a))ᵀ =
      1 + (-s) • cross_matrix a + u • (cross_matrix a * cross_matrix a) := by
  rw [Matrix.transpose_add, Matrix.transpose_add, Matrix.transpose_one,
    Matrix.transpose_smul, Matrix.transpose_smul, Matrix.transpose_mul,
    cross_matrix_transpose, Matrix.neg_mul, Matrix.mul_neg, neg_neg, smul_neg, neg_smul]

/-- For a unit axis the Rodrigues matrix is orthogonal. -/
lemma rodrigues_orthogonal (θ : ℝ) (a : Fin 3 → ℝ)
    (h1 : a 0 ^ 2 + a 1 ^ 2 + a 2 ^ 2 = 1) :
    (1 + Real.sin (-θ) • cross_matrix a +
      (1 - Real.cos (-θ)) • (cross_matrix a * cross_matrix a))ᵀ *
    (1 + Real.sin (-θ) • cross_matrix a +
      (1 - Real.cos (-θ)) • (cross_matrix a * cross_matrix a)) = 1 := by
  have h2 : Real.sin (-θ) ^ 2 + Real.cos (-θ) ^ 2 = 1 := Real.sin_sq_add_cos_sq (-θ)
  set s := Real.sin (-θ) with hs
  set c := Real.cos (-θ) with hc
  rw [rodrigues_transpose s (1 - c) a, rodrigues_expand (-s) (1 - c) a,
    rodrigues_expand s (1 - c) a]
  ext i j
  fin_cases i <;> fin_cases j
  · simp [Matrix.mul_apply, Matrix.one_apply, Fin.sum_univ_three]
    linear_combination ((a 1 ^ 2 + a 2 ^ 2) * (1 - c) ^ 2) * h1 + (a 1 ^ 2 + a 2 ^ 2) * h2
  · simp [Matrix.mul_apply, Matrix.one_apply, Fin.sum_univ_three]
    linear_combination (-(a 0 * a 1) * (1 - c) ^ 2) * h1 + (-(a 0 * a 1)) * h2
  · simp [Matrix.mul_apply, Matrix.one_apply, Fin.sum_univ_three]
    linear_combination (-(a 0 * a 2) * (1 - c) ^ 2) * h1 + (-(a 0 * a 2)) * h2
  · simp [Matrix.mul_apply, Matrix.one_apply, Fin.sum_univ_three]
    linear_combination (-(a 0 * a 1) * (1 - c) ^ 2) * h1 + (-(a 0 * a 1)) * h2
  · simp [Matrix.mul_apply, Matrix.one_apply, Fin.sum_univ_three]
    linear_combination ((a 0 ^ 2 + a 2 ^ 2) * (1 - c) ^ 2) * h1 + (a 0 ^ 2 + a 2 ^ 2) * h2
  · simp [Matrix.mul_apply, Matrix.one_apply, Fin.sum_univ_three]
    linear_combination (-(a 1 * a 2) * (1 - c) ^ 2) * h1 + (-(a 1 * a 2)) * h2
  · simp [Matrix.mul_apply, Matrix.one_apply, Fin.sum_univ_three]
    linear_combination (-(a 0 * a 2) * (1 - c) ^ 2) * h1 + (-(a 0 * a 2)) * h2
  · simp [Matrix.mul_apply, Matrix.one_apply, Fin.sum_univ_three]
    linear_combination (-(a 1 * a 2) * (1 - c) ^ 2) * h1 + (-(a 1 * a 2)) * h2
  · simp [Matrix.mul_apply, Matrix.one_apply, Fin.sum_univ_three]
    linear_combination ((a 0 ^ 2 + a 1 ^ 2) * (1 - c) ^ 2) * h1 + (a 0 ^ 2 + a 1 ^ 2) * h2


/-- Multiplication by an orthogonal matrix preserves the sum of squared
components. -/
lemma mulVec_sum_sq (R : Matrix (Fin 3) (Fin 3) ℝ) (hR : Rᵀ * R = 1)
    (w : Fin 3 → ℝ) :
    ∑ k, (R *ᵥ w) k ^ 2 = ∑ k, w k ^ 2 := by
  have ha : ∑ k, (R *ᵥ w) k ^ 2 = (R *ᵥ w) ⬝ᵥ (R *ᵥ w) := by
    simp [Matrix.dotProduct, sq]
  have hb : ∑ k, w k ^ 2 = w ⬝ᵥ w := by
    simp [Matrix.dotProduct, sq]
  rw [ha, hb, Matrix.dotProduct_mulVec, ← Matrix.vecMul_transpose,
    Matrix.vecMul_vecMul, hR, Matrix.vecMul_one]

/-- A nonzero vector divided by its Euclidean norm has unit sum of
squares. -/
lemma normalized_sum_sq (v : Fin 3 → ℝ) (hv : v ≠ 0) :
    (v 0 / norm3 v) ^ 2 + (v 1 / norm3 v) ^ 2 + (v 2 / norm3 v) ^ 2 = 1 := by
  have hk : ∃ k, v k ≠ 0 := by
    by_contra hcon
    push_neg at hcon
    exact hv (funext hcon)
  obtain ⟨k, hk⟩ := hk
  have hpos : 0 < ∑ j, v j ^ 2 :=
    Finset.sum_pos' (fun i _ => sq_nonneg _) ⟨k, Finset.mem_univ k, by positivity⟩
  have hsq : norm3 v ^ 2 = ∑ j, v j ^ 2 := Real.sq_sqrt hpos.le
  have hdiv : (v 0 / norm3 v) ^ 2 + (v 1 / norm3 v) ^ 2 + (v 2 / norm3 v) ^ 2 =
      (v 0 ^ 2 + v 1 ^ 2 + v 2 ^ 2) / norm3 v ^ 2 := by
    ring
  have hnum : v 0 ^ 2 + v 1 ^ 2 + v 2 ^ 2 = ∑ j, v j ^ 2 :=
    (Fin.sum_univ_three (fun j => v j ^ 2)).symm
  rw [hdiv, hnum, hsq]
  exact div_self hpos.ne'

/-- The source rotation matrix of a nonzero axis is orthogonal. -/
lemma rotation_matrix_orthogonal (theta : ℝ) (axis : Fin 3 → ℝ)
    (hax : axis ≠ 0) :
    (rotation_matrix theta axis)ᵀ * rotation_matrix theta axis = 1 := by
  simp only [rotation_matrix]
  exact rodrigues_orthogonal theta _ (normalized_sum_sq axis hax)

/-- The spec skew matrix agrees with the source cross-product matrix. -/
lemma skewSpec_eq_cross_matrix (a : Fin 3 → ℝ) :
    skewSpec a = cross_matrix a := by
  ext i j
  fin_cases i <;> fin_cases j <;>
    simp [skewSpec, cross_matrix, cross_apply, Pi.single_apply]

/-- The source rotation matrix equals the spec formula. -/
lemma rotation_matrix_eq_spec (theta : ℝ) (axis : Fin 3 → ℝ) :
    rotation_matrix theta axis = rotationMatrixSpec theta axis := by
  simp only [rotation_matrix, rotationMatrixSpec, skewSpec_eq_cross_matrix]
  have hnorm : ((norm3 axis)⁻¹ • axis) = fun k => axis k / norm3 axis := by
    funext k
    simp [div_eq_inv_mul]
  rw [hnorm]

/-- The coordinates of a rotated molecule are the original rows
multiplied by the rotation matrix (as column vectors). -/
lemma rotate_coordinates (m : Molecule) (theta : ℝ) (axis : Fin 3 → ℝ) :
    (rotate_molecule m theta (some axis)).coordinates =
      m.coordinates.map (fun p => rotation_matrix theta axis *ᵥ p) := by
  simp only [rotate_molecule, Option.getD_some]
  rw [coordinates_apply_to_coordinates _ _ (by simp [Molecule.coordinates])]
  apply List.map_congr_left
  intro p _
  rw [Matrix.vecMul_transpose]

/-- Claim C2: `rotate_molecule` maps each coordinate row `p` to
`p · Rᵀ` (equivalently `R · p` on column vectors), where `R` is the
spec formula `I + sin(−angle)·K + (1 − cos(−angle))·K²` for the
normalized axis, and the default axis is (0,0,1). -/
theorem claim_rotate_molecule_spec (m : Molecule) (theta : ℝ)
    (axis : Fin 3 → ℝ) (hax : axis ≠ 0) :
    (rotate_molecule m theta (some axis)).coordinates =
      m.coordinates.map (fun p => rotationMatrixSpec theta axis *ᵥ p) ∧
    rotate_molecule m theta none = rotate_molecule m theta (some ![0, 0, 1]) := by
  constructor
  · rw [rotate_coordinates, rotation_matrix_eq_spec]
  · rfl

/-- Witness for C2 at a concrete molecule, angle 1 and the z-axis. -/
theorem claim_rotate_molecule_spec_witness :
    (rotate_molecule molHH 1 (some ![0, 0, 1])).coordinates =
      molHH.coordinates.map (fun p => rotationMatrixSpec 1 ![0, 0, 1] *ᵥ p) ∧
    rotate_molecule molHH 1 none = rotate_molecule molHH 1 (some ![0, 0, 1]) := by
  apply claim_rotate_molecule_spec
  intro hcon
  have h2 := congrFun hcon 2
  norm_num at h2

/-- Claim C3: rotation preserves the whole distance matrix. -/
theorem claim_rotation_isometry (m : Molecule) (theta : ℝ)
    (axis : Fin 3 → ℝ) (hax : axis ≠ 0) :
    (rotate_molecule m theta (some axis)).calculate_distance_matrix =
      m.calculate_distance_matrix := by
  have hR := rotation_matrix_orthogonal theta axis hax
  have key : ∀ p q : Fin 3 → ℝ,
      Real.sqrt (∑ k, ((rotation_matrix theta axis *ᵥ p) k -
          (rotation_matrix theta axis *ᵥ q) k) ^ 2) =
        Real.sqrt (∑ k, (p k - q k) ^ 2) := by
    intro p q
    congr 1
    have hsub : ∀ k, (rotation_matrix theta axis *ᵥ p) k -
        (rotation_matrix theta axis *ᵥ q) k =
        (rotation_matrix theta axis *ᵥ (p - q)) k := by
      intro k
      rw [Matrix.mulVec_sub]
      rfl
    calc ∑ k, ((rotation_matrix theta axis *ᵥ p) k -
          (rotation_matrix theta axis *ᵥ q) k) ^ 2
        = ∑ k, (rotation_matrix theta axis *ᵥ (p - q)) k ^ 2 :=
          Finset.sum_congr rfl fun k _ => by rw [hsub k]
      _ = ∑ k, (p - q) k ^ 2 := mulVec_sum_sq _ hR _
      _ = ∑ k, (p k - q k) ^ 2 := Finset.sum_congr rfl fun k _ => rfl
  unfold Molecule.calculate_distance_matrix
  rw [rotate_coordinates, List.map_map]
  apply List.map_congr_left
  intro p _
  simp only [Function.comp_apply]
  rw [List.map_map]
  apply List.map_congr_left
  intro q _
  exact key p q

/-- Witness for C3 at a concrete molecule, angle 1 and the z-axis. -/
theorem claim_rotation_isometry_witness :
    (rotate_molecule molHH 1 (some ![0, 0, 1])).calculate_distance_matrix =
      molHH.calculate_distance_matrix := by
  apply claim_rotation_isometry
  intro hcon
  have h2 := congrFun hcon 2
  norm_num at h2

end
